import Mathlib

/-!
Shallow embedding of the Sorteeer Obsidian plugin (src/main.ts) and of the
URL-metadata fetcher module bundled with it.  TypeScript objects keyed by
strings are modelled as association lists, JavaScript strings as Lean
`String` (with the JS string/array operations re-implemented over `.data`
where their semantics matters), the Obsidian vault as an explicit record of
files, folders and file contents, and every host call that the code guards
with try/catch as an `Option`-valued oracle, so that all embedded functions
are total and executable.
-/

namespace Sorteeer

/-! ## JavaScript object model (string-keyed records as association lists) -/

/-- Lookup of a key in a JS object: the value at the first matching key. -/
def objGet {α : Type} : List (String × α) → String → Option α
  | [], _ => none
  | kv :: rest, k => if kv.1 = k then some kv.2 else objGet rest k

/-- JS property assignment `o[k] = v`: replace the (first) binding of `k`
in place, or append a fresh binding when the key is absent. -/
def objSet {α : Type} : List (String × α) → String → α → List (String × α)
  | [], k, v => [(k, v)]
  | kv :: rest, k, v => if kv.1 = k then (k, v) :: rest else kv :: objSet rest k v

/-- `Object.assign(t, s)`: copy every binding of `s` into `t`, in order. -/
def objAssign {α : Type} (t s : List (String × α)) : List (String × α) :=
  s.foldl (fun acc kv => objSet acc kv.1 kv.2) t

theorem objGet_objSet_self {α : Type} (o : List (String × α)) (k : String) (v : α) :
    objGet (objSet o k v) k = some v := by
  induction o with
  | nil => simp [objGet, objSet]
  | cons kv rest ih =>
    by_cases h : kv.1 = k
    · simp [objGet, objSet, h]
    · simp [objGet, objSet, h, ih]

theorem objGet_objSet_ne {α : Type} (o : List (String × α)) (k k' : String) (v : α)
    (h : k' ≠ k) : objGet (objSet o k v) k' = objGet o k' := by
  induction o with
  | nil => simp [objGet, objSet, Ne.symm h]
  | cons kv rest ih =>
    by_cases hk : kv.1 = k
    · simp only [objSet, if_pos hk, objGet, if_neg (hk ▸ Ne.symm h)]
      rw [if_neg (fun hc : (k, v).1 = k' => h (hc.symm))]
    · simp only [objSet, if_neg hk, objGet]
      by_cases hk' : kv.1 = k'
      · simp [hk']
      · simp [hk', ih]

theorem objGet_eq_none_of_not_mem {α : Type} (o : List (String × α)) (k : String)
    (h : k ∉ o.map Prod.fst) : objGet o k = none := by
  induction o with
  | nil => rfl
  | cons kv rest ih =>
    simp only [List.map_cons, List.mem_cons, not_or] at h
    simp only [objGet]
    rw [if_neg (fun hc : kv.1 = k => h.1 hc.symm)]
    exact ih h.2

theorem objGet_objAssign {α : Type} (t s : List (String × α)) (k : String)
    (hnd : (s.map Prod.fst).Nodup) :
    objGet (objAssign t s) k =
      match objGet s k with
      | some v => some v
      | none => objGet t k := by
  induction s generalizing t with
  | nil => simp [objAssign, objGet]
  | cons kv rest ih =>
    simp only [List.map_cons, List.nodup_cons] at hnd
    have step : objAssign t (kv :: rest) = objAssign (objSet t kv.1 kv.2) rest := rfl
    rw [step, ih _ hnd.2]
    by_cases h : kv.1 = k
    · subst h
      have : objGet rest kv.1 = none := objGet_eq_none_of_not_mem rest kv.1 hnd.1
      simp [objGet, this, objGet_objSet_self]
    · simp only [objGet, h, if_false]
      cases hr : objGet rest k with
      | some v => simp
      | none => simp [objGet_objSet_ne t kv.1 k kv.2 (fun hc => h hc.symm)]

/-! ## JavaScript string operations, re-implemented over `List Char` -/

/-- JS `s.startsWith(pre)`. -/
def jsStartsWith (s pre : String) : Bool := pre.data.isPrefixOf s.data

/-- Find the first occurrence of `sep` in a character list: returns the part
before the occurrence and the part after it (scanning left to right). -/
def splitFirst (sep : List Char) : List Char → Option (List Char × List Char)
  | [] => none
  | x :: xs =>
    if sep.isPrefixOf (x :: xs) then some ([], (x :: xs).drop sep.length)
    else
      match splitFirst sep xs with
      | none => none
      | some (b, r) => some (x :: b, r)

/-- JS `s.includes(sub)`: the empty string is contained in every string. -/
def jsIncludes (s sub : String) : Bool :=
  if sub.data = [] then true else (splitFirst sub.data s.data).isSome

theorem splitFirst_eq_some (sep : List Char) :
    ∀ xs b r, splitFirst sep xs = some (b, r) → xs = b ++ sep ++ r := by
  intro xs
  induction xs with
  | nil => intro b r h; exact absurd h (by simp [splitFirst])
  | cons x xs ih =>
    intro b r h
    unfold splitFirst at h
    by_cases hp : sep.isPrefixOf (x :: xs)
    · rw [if_pos hp] at h
      obtain ⟨t, ht⟩ := List.isPrefixOf_iff_prefix.mp hp
      obtain ⟨hb, hr2⟩ : [] = b ∧ (x :: xs).drop sep.length = r := by
        simpa using h
      subst hb; subst hr2
      simp only [List.nil_append]
      conv_lhs => rw [← ht]
      rw [← ht, List.drop_left' rfl]
    · rw [if_neg hp] at h
      cases hr : splitFirst sep xs with
      | none => rw [hr] at h; exact absurd h (by simp)
      | some br =>
        obtain ⟨bb, rr⟩ := br
        rw [hr] at h
        obtain ⟨hb, hr2⟩ : x :: bb = b ∧ rr = r := by simpa using h
        subst hb; subst hr2
        simp [ih bb rr hr]

theorem splitFirst_rest_length (sep : List Char) (hsep : sep ≠ [])
    (xs b r : List Char) (h : splitFirst sep xs = some (b, r)) :
    r.length < xs.length := by
  have hd := splitFirst_eq_some sep xs b r h
  have : 1 ≤ sep.length := List.length_pos.mpr hsep
  rw [hd]
  simp only [List.length_append]
  omega

theorem splitFirst_min (sep : List Char) :
    ∀ xs b r, splitFirst sep xs = some (b, r) →
      ∀ b' r', xs = b' ++ sep ++ r' → b.length ≤ b'.length := by
  intro xs
  induction xs with
  | nil => intro b r h; exact absurd h (by simp [splitFirst])
  | cons x xs ih =>
    intro b r h b' r' hdec
    unfold splitFirst at h
    by_cases hp : sep.isPrefixOf (x :: xs)
    · rw [if_pos hp] at h
      obtain ⟨hb, _⟩ : [] = b ∧ (x :: xs).drop sep.length = r := by simpa using h
      subst hb
      exact Nat.zero_le _
    · rw [if_neg hp] at h
      cases hr : splitFirst sep xs with
      | none => rw [hr] at h; exact absurd h (by simp)
      | some br =>
        obtain ⟨bb, rr⟩ := br
        rw [hr] at h
        obtain ⟨hb, hr2⟩ : x :: bb = b ∧ rr = r := by simpa using h
        subst hb; subst hr2
        cases b' with
        | nil =>
          exfalso
          apply hp
          rw [List.isPrefixOf_iff_prefix]
          exact ⟨r', by simpa using hdec.symm⟩
        | cons y btl =>
          simp only [List.cons_append, List.cons.injEq] at hdec
          have := ih bb rr hr btl r' hdec.2
          simpa using Nat.succ_le_succ this

theorem splitFirst_none (sep : List Char) (hsep : sep ≠ []) :
    ∀ xs, splitFirst sep xs = none → ∀ b r, xs ≠ b ++ sep ++ r := by
  intro xs
  induction xs with
  | nil =>
    intro _ b r hdec
    have := congrArg List.length hdec
    simp only [List.length_nil, List.length_append] at this
    have : 1 ≤ sep.length := List.length_pos.mpr hsep
    omega
  | cons x xs ih =>
    intro h b r hdec
    unfold splitFirst at h
    by_cases hp : sep.isPrefixOf (x :: xs)
    · rw [if_pos hp] at h; exact absurd h (by simp)
    · rw [if_neg hp] at h
      cases b with
      | nil =>
        apply hp
        rw [List.isPrefixOf_iff_prefix]
        exact ⟨r, by simpa using hdec.symm⟩
      | cons y btl =>
        simp only [List.cons_append, List.cons.injEq] at hdec
        cases hr : splitFirst sep xs with
        | none => exact ih hr btl r hdec.2
        | some br => rw [hr] at h; obtain ⟨bb, rr⟩ := br; simp at h

/-- JS `s.split(sep)` for a non-empty separator, at the character-list level,
with explicit fuel (each recursive call strictly shrinks the input, so
`xs.length + 1` units of fuel always suffice). -/
def jsSplitGo (sep : List Char) : Nat → List Char → List (List Char)
  | 0, xs => [xs]
  | fuel + 1, xs =>
    match splitFirst sep xs with
    | none => [xs]
    | some (b, r) => b :: jsSplitGo sep fuel r

/-- JS `s.split(sep)`: an empty separator splits into single characters,
otherwise the string is cut at every occurrence of the separator. -/
def jsSplit (s sep : String) : List String :=
  if sep.data = [] then s.data.map (fun c => String.mk [c])
  else (jsSplitGo sep.data (s.data.length + 1) s.data).map String.mk

/-- JS `parts.join(sep)` at the character-list level. -/
def jsJoinL (sep : List Char) : List (List Char) → List Char
  | [] => []
  | [x] => x
  | x :: xs => x ++ sep ++ jsJoinL sep xs

/-- JS `parts.join(sep)`. -/
def jsJoin (parts : List String) (sep : String) : String :=
  String.mk (jsJoinL sep.data (parts.map String.data))

theorem jsSplitGo_ne_nil (sep : List Char) (fuel : Nat) (xs : List Char) :
    jsSplitGo sep fuel xs ≠ [] := by
  cases fuel with
  | zero => simp [jsSplitGo]
  | succ n =>
    cases h : splitFirst sep xs with
    | none => simp [jsSplitGo, h]
    | some br => obtain ⟨b, r⟩ := br; simp [jsSplitGo, h]

theorem jsJoinL_cons (sep : List Char) (x : List Char) (l : List (List Char))
    (h : l ≠ []) : jsJoinL sep (x :: l) = x ++ sep ++ jsJoinL sep l := by
  cases l with
  | nil => exact absurd rfl h
  | cons y l' => rfl

theorem jsJoinL_head_append (sep pre x : List Char) (l : List (List Char)) :
    jsJoinL sep ((pre ++ x) :: l) = pre ++ jsJoinL sep (x :: l) := by
  cases l with
  | nil => rfl
  | cons y l' =>
    rw [jsJoinL_cons sep (pre ++ x) (y :: l') (by simp),
      jsJoinL_cons sep x (y :: l') (by simp)]
    simp [List.append_assoc]

theorem jsJoinL_jsSplitGo (sep : List Char) (hsep : sep ≠ []) :
    ∀ fuel xs, xs.length < fuel → jsJoinL sep (jsSplitGo sep fuel xs) = xs := by
  intro fuel
  induction fuel with
  | zero => intro xs h; omega
  | succ n ih =>
    intro xs h
    cases hs : splitFirst sep xs with
    | none => simp [jsSplitGo, hs, jsJoinL]
    | some br =>
      obtain ⟨b, r⟩ := br
      have hlen := splitFirst_rest_length sep hsep xs b r hs
      have hr : r.length < n := by omega
      simp only [jsSplitGo, hs]
      rw [jsJoinL_cons sep b _ (jsSplitGo_ne_nil sep n r), ih r hr,
        splitFirst_eq_some sep xs b r hs]

/-- Reading `parts[i]` inside a JS template literal: an out-of-range read is
`undefined`, which stringifies to `"undefined"`. -/
def jsArrayGetStr (l : List String) (i : Nat) : String := (l.get? i).getD "undefined"

/-- JS `parts[i] = v`: in-range assignment replaces, out-of-range assignment
extends the array (the resulting holes act as empty strings under `join`). -/
def jsArraySetStr (l : List String) (i : Nat) (v : String) : List String :=
  if i < l.length then l.set i v else l ++ List.replicate (i - l.length) "" ++ [v]

/-! ## Settings (`SorteeerSettings`, `DEFAULT_SETTINGS`, `loadSettings`) -/

/-- A JSON value as it appears in the plugin's settings object. -/
inductive JValue where
  | jstr (s : String)
  | jbool (b : Bool)
  deriving DecidableEq, Repr

/-- `DEFAULT_SETTINGS` from src/main.ts, as a JS object. -/
def DEFAULT_SETTINGS : List (String × JValue) :=
  [("sortFolder", .jstr "/"),
   ("sortOrder", .jstr "random"),
   ("deleteAction", .jstr "trash"),
   ("moveAction", .jstr "Archive"),
   ("removeTagAction", .jstr "#stub"),
   ("addTagAction", .jstr "#reviewed"),
   ("addStarAction", .jstr "⭐"),
   ("addLinkAction", .jstr ""),
   ("seeAlsoHeader", .jstr "See also"),
   ("dailyNoteFormat", .jstr "YYYY-MM-DD"),
   ("dailyNoteFolder", .jstr "/"),
   ("dailyNoteSection", .jstr "## Reviewed"),
   ("showNotifications", .jbool true)]

/-- `loadSettings`: `Object.assign({}, DEFAULT_SETTINGS, await this.loadData())`,
where `d` is the stored data object returned by `loadData`. -/
def loadSettings (d : List (String × JValue)) : List (String × JValue) :=
  objAssign (objAssign [] DEFAULT_SETTINGS) d

/-! ## The vault model (host `Vault`, `TFile`, `TFolder`) -/

/-- A `TFile` as the plugin sees it: path metadata and the `stat` fields the
code reads (`stat.ctime`, `stat.size`).  File contents live in the vault,
matching Obsidian, where content is only reachable through `vault.read`.
The containing folder is recorded explicitly in `parent`. -/
structure MFile where
  path : String
  name : String
  basename : String
  extension : String
  parent : String
  ctime : Int
  size : Int
  deriving DecidableEq, Repr

/-- A `TFolder`: its path and the path of its containing folder. -/
structure MFolder where
  path : String
  parent : String
  deriving DecidableEq, Repr

/-- What `getAbstractFileByPath` can return: a file or a folder. -/
inductive AbsRef where
  | file (f : MFile)
  | folder (path : String)
  deriving DecidableEq, Repr

/-- The vault: files, folders, and a content map keyed by file path. -/
structure Vault where
  files : List MFile
  folders : List MFolder
  contents : List (String × String)
  deriving DecidableEq, Repr

/-- `app.vault.getAbstractFileByPath(p)`. -/
def getAbstractFileByPath (v : Vault) (p : String) : Option AbsRef :=
  match v.files.find? (fun f => f.path = p) with
  | some f => some (.file f)
  | none =>
    match v.folders.find? (fun d => d.path = p) with
    | some d => some (.folder d.path)
    | none => none

/-- `folder.children` of the folder at path `p`: its direct files and
subfolders. -/
def folderChildren (v : Vault) (p : String) : List AbsRef :=
  (v.files.filter (fun f => f.parent = p)).map .file ++
    (v.folders.filter (fun d => d.parent = p)).map (fun d => .folder d.path)

/-- `folder.children.filter(file => file instanceof TFile && file.extension === 'md')`. -/
def mdNotes (v : Vault) (p : String) : List MFile :=
  (folderChildren v p).filterMap fun c =>
    match c with
    | .file f => if f.extension = "md" then some f else none
    | .folder _ => none

/-- `app.vault.trash(file, true)`: the file leaves the vault (system trash). -/
def trashFile (v : Vault) (p : String) : Vault :=
  { v with
    files := v.files.filter (fun f => f.path ≠ p)
    contents := v.contents.filter (fun kv => kv.1 ≠ p) }

/-- Replace the stored content of the file at path `p`. -/
def setContent (v : Vault) (p : String) (c : String) : Vault :=
  { v with contents := objSet v.contents p c }

/-- `app.vault.read(file)`. -/
def vaultRead (v : Vault) (p : String) : Option String := objGet v.contents p

/-- `app.vault.modify(file, content)`. -/
def vaultModify (v : Vault) (p : String) (c : String) : Vault := setContent v p c

/-- The characters of `p` before its last `/` (the parent directory of a
slash-separated path). -/
def parentDir (p : String) : String :=
  String.mk (((p.data.reverse.dropWhile (fun c => c ≠ '/')).drop 1).reverse)

/-- The characters of `p` after its last `/`. -/
def lastSegment (p : String) : String :=
  String.mk ((p.data.reverse.takeWhile (fun c => c ≠ '/')).reverse)

/-- The characters of `s` after its last `.` (a file extension). -/
def extOf (s : String) : String :=
  String.mk ((s.data.reverse.takeWhile (fun c => c ≠ '.')).reverse)

/-- The characters of `s` before its last `.` (a basename). -/
def baseOf (s : String) : String :=
  String.mk (((s.data.reverse.dropWhile (fun c => c ≠ '.')).drop 1).reverse)

/-- `app.vault.create(path, content)`: fails (rejects) when something already
exists at `path` or the parent folder does not exist; otherwise adds a new
file with the given content.  `now` is the host clock used for `ctime`. -/
def vaultCreate (v : Vault) (p : String) (content : String) (now : Int) :
    Option (MFile × Vault) :=
  match getAbstractFileByPath v p with
  | some _ => none
  | none =>
    if (v.folders.find? (fun d => d.path = parentDir p)).isSome then
      let f : MFile :=
        { path := p, name := lastSegment p, basename := baseOf (lastSegment p),
          extension := extOf (lastSegment p), parent := parentDir p,
          ctime := now, size := (content.data.length : Int) }
      some (f, { v with files := v.files ++ [f],
                        contents := objSet v.contents p content })
    else none

/-- `app.fileManager.renameFile(file, newPath)`: fails when the destination
exists or its parent folder does not; otherwise the file keeps its identity
and content under the new path. -/
def renameFile (v : Vault) (f : MFile) (newPath : String) : Option Vault :=
  match getAbstractFileByPath v newPath with
  | some _ => none
  | none =>
    if (v.folders.find? (fun d => d.path = parentDir newPath)).isSome then
      some { v with
        files := v.files.map fun g =>
          if g.path = f.path then
            { g with path := newPath, parent := parentDir newPath,
                     name := lastSegment newPath,
                     basename := baseOf (lastSegment newPath),
                     extension := extOf (lastSegment newPath) }
          else g
        contents := (v.contents.filter (fun kv => kv.1 ≠ f.path)) ++
          (match objGet v.contents f.path with
           | some c => [(newPath, c)]
           | none => []) }
    else none

/-! ## The review modal (`SorteeerModal`) -/

/-- The `sortOrder` setting. -/
inductive SortOrder where
  | random
  | oldest
  | newest
  | smallest
  deriving DecidableEq, Repr

/-- The settings fields the modal logic reads. -/
structure SettingsM where
  sortFolder : String
  sortOrder : SortOrder
  moveAction : String
  dailyNoteFormat : String
  dailyNoteFolder : String
  dailyNoteSection : String
  deriving DecidableEq, Repr

/-- The queue-building `switch` of `loadNextNote`: `notes.sort(cmp)` is a
stable comparator sort, embedded as an insertion sort over the comparator's
non-strict order; the `'random'` shuffle is host randomness, abstracted as
the function argument `rand`. -/
def sortNotes (rand : List MFile → List MFile) (o : SortOrder)
    (notes : List MFile) : List MFile :=
  match o with
  | .random => rand notes
  | .oldest => notes.insertionSort (fun a b => a.ctime ≤ b.ctime)
  | .newest => notes.insertionSort (fun a b => b.ctime ≤ a.ctime)
  | .smallest => notes.insertionSort (fun a b => a.size ≤ b.size)

/-- The mutable fields of `SorteeerModal`: `currentNote`, `sortedNotes`,
`currentIndex`. -/
structure SModal where
  currentNote : Option MFile
  sortedNotes : List MFile
  currentIndex : Nat
  deriving DecidableEq, Repr

/-- A placeholder for the (unreachable) out-of-range queue read. -/
def defaultMFile : MFile :=
  { path := "", name := "", basename := "", extension := "", parent := "",
    ctime := 0, size := 0 }

/-- Outcome of `loadNextNote`: an early-returned `Notice` (state untouched),
a thrown `TypeError` (`folder.children` on a non-folder; state untouched),
or a normal completion with the updated modal state. -/
inductive LoadOutcome where
  | notice (msg : String) (s : SModal)
  | thrown (s : SModal)
  | ok (s : SModal)
  | noAction (s : SModal)
  deriving DecidableEq, Repr

/-- `SorteeerModal.loadNextNote`, following src/main.ts line by line: resolve
the sort folder (`as TFolder` is an unchecked cast, so a path that resolves
to a file crashes on `.children`), filter markdown notes, rebuild the queue
when it is empty or exhausted, display `sortedNotes[currentIndex]`, post-
increment the cursor and wrap it to 0 past the end. -/
def loadNextNote (rand : List MFile → List MFile) (v : Vault) (st : SettingsM)
    (s : SModal) : LoadOutcome :=
  match getAbstractFileByPath v st.sortFolder with
  | none => .notice "Sorteeer: Invalid folder path" s
  | some (.file _) => .thrown s
  | some (.folder p) =>
    let notes := mdNotes v p
    if notes.length = 0 then
      .notice "Sorteeer: No notes found in the specified folder" s
    else
      let rebuild := s.sortedNotes.length = 0 ∨ s.sortedNotes.length ≤ s.currentIndex
      let queue := if rebuild then sortNotes rand st.sortOrder notes else s.sortedNotes
      let idx := if rebuild then 0 else s.currentIndex
      let note := queue.getD idx defaultMFile
      let s' : SModal :=
        { currentNote := some note, sortedNotes := queue, currentIndex := idx + 1 }
      .ok (if queue.length ≤ s'.currentIndex then { s' with currentIndex := 0 } else s')

/-- `SorteeerModal.deleteNote`: trash the current note, then load the next. -/
def deleteNote (rand : List MFile → List MFile) (v : Vault) (st : SettingsM)
    (s : SModal) : Vault × LoadOutcome :=
  match s.currentNote with
  | some f =>
    let v' := trashFile v f.path
    (v', loadNextNote rand v' st s)
  | none => (v, .noAction s)

/-- `SorteeerModal.moveNote`: rename the current note into the `moveAction`
folder and load the next note; with no valid target folder the code opens a
`FolderSuggestModal` instead (no advance), and a rejected rename surfaces as
a thrown error. -/
def moveNote (rand : List MFile → List MFile) (v : Vault) (st : SettingsM)
    (s : SModal) : Vault × LoadOutcome :=
  match s.currentNote with
  | some f =>
    match getAbstractFileByPath v st.moveAction with
    | some (.folder p) =>
      match renameFile v f (p ++ "/" ++ f.name) with
      | some v' => (v', loadNextNote rand v' st s)
      | none => (v, .thrown s)
    | some (.file tf) =>
      -- the unchecked `as TFolder` cast lets a file pass the truthiness test;
      -- the rename below targets a path under a file and rejects
      match renameFile v f (tf.path ++ "/" ++ f.name) with
      | some v' => (v', loadNextNote rand v' st s)
      | none => (v, .thrown s)
    | none => (v, .noAction s)
  | none => (v, .noAction s)

/-- `SorteeerModal.skipNote`: just load the next note. -/
def skipNote (rand : List MFile → List MFile) (v : Vault) (st : SettingsM)
    (s : SModal) : Vault × LoadOutcome :=
  (v, loadNextNote rand v st s)

/-- `SorteeerModal.copyNoteLink`: copy the link (host clipboard), notice,
then load the next note. -/
def copyNoteLink (rand : List MFile → List MFile) (v : Vault) (st : SettingsM)
    (s : SModal) : Vault × LoadOutcome :=
  (v, loadNextNote rand v st s)

/-- The four review-modal actions that advance to the next note. -/
inductive ReviewAction where
  | del
  | move
  | skip
  | copyLink
  deriving DecidableEq, Repr

/-- Dispatch one review-modal action. -/
def applyAction (rand : List MFile → List MFile) (act : ReviewAction)
    (v : Vault) (st : SettingsM) (s : SModal) : Vault × LoadOutcome :=
  match act with
  | .del => deleteNote rand v st s
  | .move => moveNote rand v st s
  | .skip => skipNote rand v st s
  | .copyLink => copyNoteLink rand v st s

/-- An action reaches its `loadNextNote` call: for `moveNote` this needs a
current note whose rename into the resolved move target succeeds; `deleteNote`
needs a current note; `skipNote` and `copyNoteLink` always advance. -/
def actionCompletes (act : ReviewAction) (v : Vault) (st : SettingsM)
    (s : SModal) : Prop :=
  match act with
  | .move => ∃ f p, s.currentNote = some f ∧
      getAbstractFileByPath v st.moveAction = some (.folder p) ∧
      (renameFile v f (p ++ "/" ++ f.name)).isSome
  | _ => True

/-! ## Daily note (`SorteeerPlugin.getDailyNote`, `SorteeerPlugin.addToDailyNote`) -/

/-- `SorteeerPlugin.getDailyNote`: look up
`dailyNoteFolder + '/' + moment().format(dailyNoteFormat) + '.md'`, create it
with empty content when absent (re-looking it up if creation rejects), and
return the `TFile` or `null`.  `dateString` is the host's formatted current
date and `now` the host clock. -/
def getDailyNote (v : Vault) (st : SettingsM) (dateString : String) (now : Int) :
    Option MFile × Vault :=
  let dailyNotePath := st.dailyNoteFolder ++ "/" ++ dateString ++ ".md"
  match getAbstractFileByPath v dailyNotePath with
  | some (.file f) => (some f, v)
  | some (.folder _) => (none, v)
  | none =>
    match vaultCreate v dailyNotePath "" now with
    | some (f, v') => (some f, v')
    | none =>
      -- creation rejected; the code re-reads the path, which (sequentially)
      -- still resolves to nothing, so the function notifies and returns null
      match getAbstractFileByPath v dailyNotePath with
      | some (.file f) => (some f, v)
      | _ => (none, v)

/-- The content edit at the heart of `addToDailyNote`: when the daily note
contains `dailyNoteSection`, split on it and prepend `"\n- [[basename]]"` to
`parts[1]`; otherwise append the section and the link at the end. -/
def addToDailyNoteContent (content sectionToAdd basename : String) : String :=
  let linkToAdd := "[[" ++ basename ++ "]]"
  if jsIncludes content sectionToAdd then
    let parts := jsSplit content sectionToAdd
    let parts := jsArraySetStr parts 1 ("\n- " ++ linkToAdd ++ jsArrayGetStr parts 1)
    jsJoin parts sectionToAdd
  else
    content ++ "\n\n" ++ sectionToAdd ++ "\n- " ++ linkToAdd

/-- `SorteeerPlugin.addToDailyNote(currentNote)`: with a current note and a
daily note available, read the daily note, insert the link, and write it
back (the action-stat increment and the notice are modelled separately). -/
def addToDailyNote (v : Vault) (st : SettingsM) (dateString : String) (now : Int)
    (currentNote : Option MFile) : Vault :=
  match currentNote with
  | none => v
  | some f =>
    match getDailyNote v st dateString now with
    | (none, v₁) => v₁
    | (some dn, v₁) =>
      match vaultRead v₁ dn.path with
      | none => v₁
      | some content =>
        vaultModify v₁ dn.path (addToDailyNoteContent content st.dailyNoteSection f.basename)

/-! ## Action stats (`incrementActionStat`, `loadActionStats`,
`saveActionStats`, `saveSettings`) -/

/-- The persisted data file (`loadData`/`saveData`): the settings keys plus
the optional `actionStats` key. -/
structure StoredData where
  settingsObj : List (String × JValue)
  actionStats? : Option (List (String × Nat))
  deriving DecidableEq, Repr

/-- The plugin state relevant to action stats: the in-memory counter map,
the in-memory settings object, and the persisted data file. -/
structure PluginStatsState where
  actionStats : List (String × Nat)
  settingsObj : List (String × JValue)
  stored : StoredData
  deriving DecidableEq, Repr

/-- `incrementActionStat(action)`:
`this.actionStats[action] = (this.actionStats[action] || 0) + 1` followed by
`saveActionStats()`, which saves `{ ...await this.loadData(), actionStats }`
(all other stored keys survive). -/
def incrementActionStat (st : PluginStatsState) (action : String) : PluginStatsState :=
  let m := objSet st.actionStats action ((objGet st.actionStats action).getD 0 + 1)
  { st with actionStats := m, stored := { st.stored with actionStats? := some m } }

/-- `saveActionStats()` on its own. -/
def saveActionStats (st : PluginStatsState) : PluginStatsState :=
  { st with stored := { st.stored with actionStats? := some st.actionStats } }

/-- `loadActionStats()`: `this.actionStats = stats?.actionStats || {}`. -/
def loadActionStats (st : PluginStatsState) : PluginStatsState :=
  { st with actionStats := st.stored.actionStats?.getD [] }

/-- `saveSettings()`: `saveData(this.settings)` — the data file is replaced
by the settings object alone, so the stored `actionStats` key is dropped. -/
def saveSettings (st : PluginStatsState) : PluginStatsState :=
  { st with stored := { settingsObj := st.settingsObj, actionStats? := none } }

/-- The plugin operations that touch the action-stats map or the data file. -/
inductive StatsOp where
  | increment (action : String)
  | loadStats
  | saveStats
  | saveSettingsOp
  deriving DecidableEq, Repr

/-- One operation step. -/
def statsStep (st : PluginStatsState) (op : StatsOp) : PluginStatsState :=
  match op with
  | .increment a => incrementActionStat st a
  | .loadStats => loadActionStats st
  | .saveStats => saveActionStats st
  | .saveSettingsOp => saveSettings st

/-- A fresh install: empty in-memory map, empty data file. -/
def initStatsState : PluginStatsState :=
  { actionStats := [], settingsObj := [],
    stored := { settingsObj := [], actionStats? := none } }

/-- Run a sequence of operations from the fresh-install state. -/
def runStats (ops : List StatsOp) : PluginStatsState :=
  ops.foldl statsStep initStatsState

/-! ## URL metadata fetcher (`fetchUrlContent` and its helpers)

Each network/DOM host call the code wraps in try/catch is modelled as an
`Option`-valued oracle in `HttpEnv` (`none` = the call threw).  One failure
path is NOT caught by the code: in `electronGetPageTitle`,
`require("electron")` and the destructuring `const { BrowserWindow } =
remote` execute before the try block, so when `electron.remote` is absent
(Electron ≥ 14) the function throws and, the `await` in `fetchUrlContent`
being unguarded, the whole promise rejects; the embedding therefore returns
`Option` at the top level, `none` standing for that rejection. -/

/-- The `<title>` element as the code inspects it. -/
structure TitleElem where
  innerText : String
  noTitleAttr : Option String
  deriving DecidableEq, Repr

/-- A HEAD response: `response.status` and the (possibly absent)
`content-type` header. -/
structure HeadResp where
  status : Nat
  contentType? : Option String
  deriving DecidableEq, Repr

/-- The host environment seen by the fetcher: each field answers one kind of
host call, as a function of the request URL (or of the fetched HTML). -/
structure HttpEnv where
  headResp : String → Option HeadResp
  parsePathname : String → Option String
  electronAvailable : Bool
  remotePresent : Bool
  electronLoadOk : String → Bool
  electronTitle : String → Option String
  request : String → Option String
  docTitle : String → Option TitleElem
  metaQuery : String → String → Option String

/-- JS truthiness of a string-or-null-or-undefined value: `undefined`,
`null` and `''` are falsy, every other string is truthy. -/
def jsTruthyStr (x : Option String) : Bool :=
  match x with
  | some s => if s = "" then false else true
  | none => false

/-- `getUrlFinalSegment(url)`: the last non-empty path segment of the URL,
`''` when there is none, `"File"` when URL parsing throws. -/
def getUrlFinalSegment (env : HttpEnv) (url : String) : String :=
  match env.parsePathname url with
  | none => "File"
  | some pa =>
    let segments := jsSplit pa "/"
    let firstPop := segments.getLast?
    let secondPop := segments.dropLast.getLast?
    let lastSeg : Option String :=
      match firstPop with
      | some s => if s ≠ "" then some s else secondPop
      | none => secondPop
    match lastSeg with
    | some s => s
    | none => ""

/-- `tryGetFileType(url)`: HEAD the URL; a non-2xx status yields
`"Site Unreachable"`, a non-HTML content type yields the URL's final path
segment, an HTML page (or any thrown request) yields `null`. -/
def tryGetFileType (env : HttpEnv) (url : String) : Option String :=
  match env.headResp url with
  | none => none
  | some r =>
    if ¬ jsStartsWith (Nat.repr r.status) "2" then some "Site Unreachable"
    else
      match r.contentType? with
      | none => none  -- `contentType.includes` throws on undefined; caught → null
      | some ct =>
        if ¬ jsIncludes ct "text/html" then some (getUrlFinalSegment env url)
        else none

/-- `electronGetPageTitle(url)`: `require("electron")` and the destructuring
`const { remote } = electronPkg; const { BrowserWindow } = remote` run
*before* the try block (main.ts:1268-1270), so with `electron.remote` absent
the function throws an uncaught TypeError — modelled as `none`.  Inside the
try block every failure is caught: a failed page load yields
`"Site Unreachable"`, a thrown `getTitle` yields the URL, a blank title
yields the URL. -/
def electronGetPageTitle (env : HttpEnv) (url : String) : Option String :=
  if env.remotePresent then
    some (if env.electronLoadOk url then
            match env.electronTitle url with
            | none => url
            | some t => if t ≠ "" then t else url
          else "Site Unreachable")
  else none

/-- `nonElectronGetPageTitle(url)`. -/
def nonElectronGetPageTitle (env : HttpEnv) (url : String) : String :=
  match env.request url with
  | none => "Site Unreachable"
  | some html =>
    match env.docTitle html with
    | none => url
    | some te =>
      if te.innerText = "" then
        match te.noTitleAttr with
        | some nt => if nt ≠ "" then nt else url
        | none => url
      else te.innerText

/-- The URL rewrite at the top of `fetchUrlContent`:
`if (!(url.startsWith("http") || url.startsWith("https"))) url = "https://" + url`. -/
def normalizeUrl (url : String) : String :=
  if ¬ (jsStartsWith url "http" || jsStartsWith url "https") then "https://" ++ url
  else url

/-- The per-field extraction of the `fields.forEach` switch.  The JS chains
`a || b || ''` fall through on `undefined`, `null` *and* the empty string,
so each link of the chain is guarded by `jsTruthyStr`. -/
def extractField (env : HttpEnv) (html field : String) : String :=
  if field = "description" then
    let a := env.metaQuery html "meta[name=description]"
    let b := env.metaQuery html "meta[property=og:description]"
    if jsTruthyStr a then a.getD "" else if jsTruthyStr b then b.getD "" else ""
  else if field = "image" then
    let a := env.metaQuery html "meta[property=og:image]"
    if jsTruthyStr a then a.getD "" else ""
  else
    let a := env.metaQuery html ("meta[property=og:" ++ field ++ "]")
    let b := env.metaQuery html ("meta[name=" ++ field ++ "]")
    if jsTruthyStr a then a.getD "" else if jsTruthyStr b then b.getD "" else ""

/-- The body of `fetchUrlContent` after the URL rewrite.  `if (fileType)` is
a truthiness test, so the reachable empty-segment result `''` of
`tryGetFileType` is falsy and the code continues like the `null` case; the
unguarded `await electronGetPageTitle(url)` propagates the remote-absent
throw, so the body returns `none` exactly there. -/
def fetchUrlCore (env : HttpEnv) (url : String) (fields : List String) :
    Option (List (String × String)) :=
  let fileType := tryGetFileType env url
  if jsTruthyStr fileType then some [("title", fileType.getD "")]
  else
    match (if env.electronAvailable then electronGetPageTitle env url
           else some (nonElectronGetPageTitle env url)) with
    | none => none  -- uncaught throw: the promise rejects
    | some title =>
      let result := [("title", title)]
      match env.request url with
      | none => some result  -- the extra-fields fetch threw; caught and logged
      | some html =>
        some (fields.foldl
          (fun res field =>
            if field ≠ "title" then objSet res field (extractField env html field)
            else res)
          result)

/-- `fetchUrlContent(url, fields)`: rewrite the URL, then run the body on the
rewritten URL only; `none` is a rejected promise. -/
def fetchUrlContent (env : HttpEnv) (url : String) (fields : List String) :
    Option (List (String × String)) :=
  fetchUrlCore env (normalizeUrl url) fields

/-! ## Concrete fixtures used by witnesses and counterexamples -/

/-- A markdown note in the `Inbox` folder. -/
def noteA : MFile :=
  { path := "Inbox/N.md", name := "N.md", basename := "N", extension := "md",
    parent := "Inbox", ctime := 5, size := 9 }

/-- A second markdown note in the `Inbox` folder. -/
def noteB : MFile :=
  { path := "Inbox/M.md", name := "M.md", basename := "M", extension := "md",
    parent := "Inbox", ctime := 3, size := 2 }

/-- A vault with two notes in `Inbox`; `noteA` has content `"hello"`. -/
def vault1 : Vault :=
  { files := [noteA, noteB],
    folders := [{ path := "/", parent := "" }, { path := "Inbox", parent := "/" },
                { path := "Archive", parent := "/" }],
    contents := [("Inbox/N.md", "hello"), ("Inbox/M.md", "m")] }

/-- The same vault with `noteA`'s content replaced by `"world"`. -/
def vault2 : Vault :=
  { vault1 with contents := [("Inbox/N.md", "world"), ("Inbox/M.md", "m")] }

/-- Settings pointing the review at `Inbox`, oldest first. -/
def settings0 : SettingsM :=
  { sortFolder := "Inbox", sortOrder := .oldest, moveAction := "Archive",
    dailyNoteFormat := "YYYY-MM-DD", dailyNoteFolder := "/",
    dailyNoteSection := "## Reviewed" }

/-- A modal state positioned on `noteA` with a two-note queue. -/
def modal0 : SModal :=
  { currentNote := some noteA, sortedNotes := [noteA, noteB], currentIndex := 0 }

/-- A deterministic stand-in for the host's random shuffle. -/
def idShuffle : List MFile → List MFile := fun l => l

/-! ## C1 — deleteNote, snapshots, and undo -/

theorem filter_ne_objSet {α : Type} (o : List (String × α)) (k : String) (v : α) :
    (objSet o k v).filter (fun kv => kv.1 ≠ k) = o.filter (fun kv => kv.1 ≠ k) := by
  induction o with
  | nil => simp [objSet]
  | cons kv rest ih =>
    by_cases h : kv.1 = k
    · simp [objSet, h, List.filter_cons, ih]
    · simp only [objSet, if_neg h, List.filter_cons]
      rw [if_pos (by simpa using h), if_pos (by simpa using h), ih]

theorem trashFile_setContent (v : Vault) (p : String) (c : String) :
    trashFile (setContent v p c) p = trashFile v p := by
  cases v with
  | mk files folders contents =>
    simp only [trashFile, setContent]
    rw [filter_ne_objSet]

/-- C1, counterexample: `deleteNote` retains no snapshot of the deleted
note.  Two vaults that differ only in the current note's content produce
identical post-states, so nothing in the resulting state records the deleted
content (path + content) and no undo operation could restore it; the code
has no recently-deleted list at all. -/
theorem c1_deleteNote_counterexample :
    vault1 ≠ vault2 ∧
    vaultRead vault1 noteA.path = some "hello" ∧
    vaultRead vault2 noteA.path = some "world" ∧
    modal0.currentNote = some noteA ∧
    deleteNote idShuffle vault1 settings0 modal0 =
      deleteNote idShuffle vault2 settings0 modal0 := by
  refine ⟨by decide, by decide, by decide, by decide, ?_⟩
  decide

/-- C1, amended: `deleteNote` on a non-null current note removes the note
(file and content) from the vault and advances via `loadNextNote`; no
snapshot is retained — the outcome is the same whatever the deleted note's
content was. -/
theorem c1_deleteNote_amended (rand : List MFile → List MFile) (v : Vault)
    (st : SettingsM) (s : SModal) (f : MFile) (c : String)
    (h : s.currentNote = some f) :
    (deleteNote rand v st s).1.files = v.files.filter (fun g => g.path ≠ f.path) ∧
    (deleteNote rand v st s).1.contents = v.contents.filter (fun kv => kv.1 ≠ f.path) ∧
    (deleteNote rand v st s).2 = loadNextNote rand (trashFile v f.path) st s ∧
    deleteNote rand (setContent v f.path c) st s = deleteNote rand v st s := by
  have hsc : (setContent v f.path c).files = v.files := rfl
  refine ⟨?_, ?_, ?_, ?_⟩
  · simp [deleteNote, h, trashFile]
  · simp [deleteNote, h, trashFile]
  · simp [deleteNote, h]
  · have hts := trashFile_setContent v f.path c
    simp only [deleteNote, h]
    rw [hts]

/-- C1, witness for the amended theorem at a concrete state. -/
theorem c1_deleteNote_witness :
    modal0.currentNote = some noteA ∧
    (deleteNote idShuffle vault1 settings0 modal0).1.files =
      vault1.files.filter (fun g => g.path ≠ noteA.path) :=
  ⟨by decide,
    (c1_deleteNote_amended idShuffle vault1 settings0 modal0 noteA "x" (by decide)).1⟩

/-! ## C2 — loadSettings fills missing keys with defaults -/

/-- C2: for a stored settings object `d` (unique keys, as in any JSON
object), `loadSettings` keeps every key present in `d` at its stored value
and gives every absent key its `DEFAULT_SETTINGS` value. -/
theorem c2_loadSettings_defaults (d : List (String × JValue)) (k : String)
    (hnd : (d.map Prod.fst).Nodup) :
    (∀ v, objGet d k = some v → objGet (loadSettings d) k = some v) ∧
    (objGet d k = none → objGet (loadSettings d) k = objGet DEFAULT_SETTINGS k) := by
  have hD : (DEFAULT_SETTINGS.map Prod.fst).Nodup := by decide
  have h1 := objGet_objAssign (objAssign [] DEFAULT_SETTINGS) d k hnd
  have h2 := objGet_objAssign ([] : List (String × JValue)) DEFAULT_SETTINGS k hD
  constructor
  · intro v hv
    rw [loadSettings, h1, hv]
  · intro hv
    rw [loadSettings, h1, hv, h2]
    cases objGet DEFAULT_SETTINGS k <;> simp [objGet]

/-- C2, witness: a stored object carrying only `sortFolder` keeps it, and the
absent `sortOrder` comes from the defaults. -/
theorem c2_loadSettings_witness :
    objGet (loadSettings [("sortFolder", JValue.jstr "Inbox")]) "sortFolder" =
      some (JValue.jstr "Inbox") ∧
    objGet (loadSettings [("sortFolder", JValue.jstr "Inbox")]) "sortOrder" =
      objGet DEFAULT_SETTINGS "sortOrder" :=
  ⟨(c2_loadSettings_defaults [("sortFolder", JValue.jstr "Inbox")] "sortFolder"
      (by decide)).1 _ (by decide),
   (c2_loadSettings_defaults [("sortFolder", JValue.jstr "Inbox")] "sortOrder"
      (by decide)).2 (by decide)⟩

/-! ## C5 — incrementActionStat -/

/-- C5: `incrementActionStat a` bumps the counter of `a` by one (an absent
key counting as zero), leaves every other counter unchanged, and persists
the resulting map in the stored data alongside the stored settings keys,
which are untouched. -/
theorem c5_incrementActionStat (st : PluginStatsState) (a : String) :
    objGet (incrementActionStat st a).actionStats a =
      some ((objGet st.actionStats a).getD 0 + 1) ∧
    (∀ b, b ≠ a →
      objGet (incrementActionStat st a).actionStats b = objGet st.actionStats b) ∧
    (incrementActionStat st a).stored.actionStats? =
      some (incrementActionStat st a).actionStats ∧
    (incrementActionStat st a).stored.settingsObj = st.stored.settingsObj :=
  ⟨objGet_objSet_self st.actionStats a _,
   fun b hb => objGet_objSet_ne st.actionStats a b _ hb,
   rfl, rfl⟩

/-- C5, witness at a concrete state. -/
theorem c5_incrementActionStat_witness :
    ("removeTag" : String) ≠ "addTag" ∧
    objGet (incrementActionStat initStatsState "addTag").actionStats "removeTag" =
      objGet initStatsState.actionStats "removeTag" :=
  ⟨by decide,
    (c5_incrementActionStat initStatsState "addTag").2.1 "removeTag" (by decide)⟩

/-! ## C9 — the action-stats invariant -/

theorem mem_objSet {α : Type} (o : List (String × α)) (k : String) (v : α) :
    ∀ kv ∈ objSet o k v, kv = (k, v) ∨ kv ∈ o := by
  induction o with
  | nil => intro kv hkv; simp [objSet] at hkv; simp [hkv]
  | cons kv0 rest ih =>
    intro kv hkv
    by_cases h : kv0.1 = k
    · simp only [objSet, if_pos h, List.mem_cons] at hkv
      rcases hkv with h1 | h2
      · exact Or.inl h1
      · exact Or.inr (List.mem_cons_of_mem _ h2)
    · simp only [objSet, if_neg h, List.mem_cons] at hkv
      rcases hkv with h1 | h2
      · exact Or.inr (h1 ▸ List.mem_cons_self _ _)
      · rcases ih kv h2 with h3 | h4
        · exact Or.inl h3
        · exact Or.inr (List.mem_cons_of_mem _ h4)

/-- The invariant that relates the in-memory counter map to the data file as
long as `saveSettings` never runs: the stored `actionStats` key (defaulted to
the empty map) agrees with memory. -/
def StatsInv (st : PluginStatsState) : Prop :=
  st.stored.actionStats?.getD [] = st.actionStats

theorem statsStep_inv (st : PluginStatsState) (op : StatsOp)
    (hop : op ≠ .saveSettingsOp) :
    StatsInv (statsStep st op) := by
  cases op with
  | increment a => simp [StatsInv, statsStep, incrementActionStat]
  | loadStats => simp [StatsInv, statsStep, loadActionStats]
  | saveStats => simp [StatsInv, statsStep, saveActionStats]
  | saveSettingsOp => exact absurd rfl hop

theorem statsStep_shape (st : PluginStatsState) (op : StatsOp)
    (hop : op ≠ .saveSettingsOp) (hinv : StatsInv st) :
    (statsStep st op).actionStats = st.actionStats ∨
      ∃ a, (statsStep st op).actionStats =
        objSet st.actionStats a ((objGet st.actionStats a).getD 0 + 1) := by
  cases op with
  | increment a => exact Or.inr ⟨a, rfl⟩
  | loadStats => exact Or.inl (by simpa [statsStep, loadActionStats] using hinv)
  | saveStats => exact Or.inl rfl
  | saveSettingsOp => exact absurd rfl hop

theorem objGet_incr_mono {m : List (String × Nat)} (a b : String) :
    (objGet m b).getD 0 ≤
      (objGet (objSet m a ((objGet m a).getD 0 + 1)) b).getD 0 := by
  by_cases h : b = a
  · subst h
    rw [objGet_objSet_self]
    simp
  · rw [objGet_objSet_ne _ _ _ _ h]

theorem objSet_incr_pos {m : List (String × Nat)} (a : String)
    (hpos : ∀ kv ∈ m, 1 ≤ kv.2) :
    ∀ kv ∈ objSet m a ((objGet m a).getD 0 + 1), 1 ≤ kv.2 := by
  intro kv hkv
  rcases mem_objSet m a _ kv hkv with h | h
  · subst h; simp
  · exact hpos kv h

theorem foldl_stats_props (suf : List StatsOp)
    (h : ∀ op ∈ suf, op ≠ StatsOp.saveSettingsOp) :
    ∀ st : PluginStatsState, StatsInv st → (∀ kv ∈ st.actionStats, 1 ≤ kv.2) →
      StatsInv (suf.foldl statsStep st) ∧
      (∀ kv ∈ (suf.foldl statsStep st).actionStats, 1 ≤ kv.2) ∧
      (∀ a, (objGet st.actionStats a).getD 0 ≤
        (objGet (suf.foldl statsStep st).actionStats a).getD 0) := by
  induction suf with
  | nil => intro st hinv hpos; exact ⟨hinv, hpos, fun a => le_refl _⟩
  | cons op rest ih =>
    intro st hinv hpos
    have hop : op ≠ StatsOp.saveSettingsOp := h op (List.mem_cons_self _ _)
    have hrest : ∀ op' ∈ rest, op' ≠ StatsOp.saveSettingsOp :=
      fun op' hm => h op' (List.mem_cons_of_mem _ hm)
    have hinv' := statsStep_inv st op hop
    have hpos' : ∀ kv ∈ (statsStep st op).actionStats, 1 ≤ kv.2 := by
      rcases statsStep_shape st op hop hinv with heq | ⟨a, heq⟩
      · rw [heq]; exact hpos
      · rw [heq]; exact objSet_incr_pos a hpos
    have hmono' : ∀ a, (objGet st.actionStats a).getD 0 ≤
        (objGet (statsStep st op).actionStats a).getD 0 := by
      intro a
      rcases statsStep_shape st op hop hinv with heq | ⟨b, heq⟩
      · rw [heq]
      · rw [heq]; exact objGet_incr_mono b a
    obtain ⟨i1, i2, i3⟩ := ih hrest (statsStep st op) hinv' hpos'
    exact ⟨i1, i2, fun a => le_trans (hmono' a) (i3 a)⟩

/-- C9, counterexample: counters do decrease across a sequence of plugin
operations.  `saveSettings` persists the settings object alone, dropping the
stored `actionStats` key, so a later `loadActionStats` resets the in-memory
map: the `"x"` counter goes from 1 back to absent (0). -/
theorem c9_stats_counterexample :
    objGet (runStats [.increment "x"]).actionStats "x" = some 1 ∧
    objGet (runStats [.increment "x", .saveSettingsOp, .loadStats]).actionStats "x" =
      none := by
  constructor <;> decide

/-- C9, amended: starting from a fresh install, across any sequence of
stats-touching operations that does not include `saveSettings`, every
operation leaves the map unchanged or increments exactly one counter by one,
every stored value is a positive integer, and no counter ever decreases.
(`saveSettings` breaks this by dropping the persisted stats, as the
counterexample shows.) -/
theorem c9_stats_invariant (ops : List StatsOp)
    (h : StatsOp.saveSettingsOp ∉ ops) :
    (∀ kv ∈ (runStats ops).actionStats, 1 ≤ kv.2) ∧
    (∀ pre suf, ops = pre ++ suf → ∀ a,
      (objGet (runStats pre).actionStats a).getD 0 ≤
        (objGet (runStats ops).actionStats a).getD 0) ∧
    (∀ pre op suf, ops = pre ++ op :: suf →
      (statsStep (runStats pre) op).actionStats = (runStats pre).actionStats ∨
      ∃ a, (statsStep (runStats pre) op).actionStats =
        objSet (runStats pre).actionStats a
          ((objGet (runStats pre).actionStats a).getD 0 + 1)) := by
  have hinit : StatsInv initStatsState := rfl
  have hpos0 : ∀ kv ∈ initStatsState.actionStats, 1 ≤ kv.2 := by
    intro kv hkv; simp [initStatsState] at hkv
  have hall : ∀ op ∈ ops, op ≠ StatsOp.saveSettingsOp :=
    fun op hm heq => h (heq ▸ hm)
  refine ⟨(foldl_stats_props ops hall initStatsState hinit hpos0).2.1, ?_, ?_⟩
  · intro pre suf heq a
    subst heq
    have hpre : ∀ op ∈ pre, op ≠ StatsOp.saveSettingsOp :=
      fun op hm => hall op (List.mem_append_left _ hm)
    have hsuf : ∀ op ∈ suf, op ≠ StatsOp.saveSettingsOp :=
      fun op hm => hall op (List.mem_append_right _ hm)
    obtain ⟨p1, p2, _⟩ := foldl_stats_props pre hpre initStatsState hinit hpos0
    have hsplit : runStats (pre ++ suf) = suf.foldl statsStep (runStats pre) := by
      simp [runStats, List.foldl_append]
    rw [hsplit]
    exact (foldl_stats_props suf hsuf (runStats pre) p1 p2).2.2 a
  · intro pre op suf heq
    subst heq
    have hpre : ∀ op' ∈ pre, op' ≠ StatsOp.saveSettingsOp :=
      fun op' hm => hall op' (List.mem_append_left _ hm)
    have hop : op ≠ StatsOp.saveSettingsOp :=
      hall op (List.mem_append_right _ (List.mem_cons_self _ _))
    obtain ⟨p1, _, _⟩ := foldl_stats_props pre hpre initStatsState hinit hpos0
    exact statsStep_shape (runStats pre) op hop p1

/-- C9, witness for the amended theorem on a concrete operation sequence. -/
theorem c9_stats_witness :
    StatsOp.saveSettingsOp ∉
      ([.increment "a", .saveStats, .increment "a", .loadStats] : List StatsOp) ∧
    ∀ kv ∈ (runStats [.increment "a", .saveStats, .increment "a", .loadStats]).actionStats,
      1 ≤ kv.2 :=
  ⟨by decide,
    (c9_stats_invariant [.increment "a", .saveStats, .increment "a", .loadStats]
      (by decide)).1⟩

/-! ## C10 — fetchUrlContent totality, title key, URL rewrite -/

theorem title_preserved_by_fields (env : HttpEnv) (html : String)
    (fields : List String) :
    ∀ res : List (String × String), (objGet res "title").isSome = true →
      (objGet (fields.foldl
        (fun res field =>
          if field ≠ "title" then objSet res field (extractField env html field)
          else res) res) "title").isSome = true := by
  induction fields with
  | nil => intro res h; exact h
  | cons field rest ih =>
    intro res h
    simp only [List.foldl_cons]
    by_cases hf : field = "title"
    · rw [if_neg (by simp [hf])]
      exact ih res h
    · rw [if_pos (by simpa using hf)]
      apply ih
      rw [objGet_objSet_ne res field "title" _ (fun hc => hf hc.symm)]
      exact h

/-- A host environment in which every call fails, without Electron. -/
def envConst : HttpEnv :=
  { headResp := fun _ => none, parsePathname := fun _ => none,
    electronAvailable := false, remotePresent := false,
    electronLoadOk := fun _ => false,
    electronTitle := fun _ => none, request := fun _ => none,
    docTitle := fun _ => none, metaQuery := fun _ _ => none }

/-- The same environment under Electron ≥ 14: `require` exists but
`electron.remote` is absent. -/
def envNoRemote : HttpEnv :=
  { envConst with electronAvailable := true }

/-- C10, counterexample: `fetchUrlContent` does not always resolve.  With
`require` available but `electron.remote` absent (Electron ≥ 14, current
Obsidian desktop), the destructuring before the try block in
`electronGetPageTitle` throws, the unguarded `await` propagates it, and the
promise rejects. -/
theorem c10_fetchUrlContent_counterexample :
    envNoRemote.electronAvailable = true ∧
    envNoRemote.remotePresent = false ∧
    fetchUrlContent envNoRemote "example.com" ["description"] = none := by
  refine ⟨rfl, rfl, ?_⟩
  decide

/-- C10, amended: whenever `fetchUrlContent` resolves, its result carries a
`title` key; the only way it can reject is the unguarded Electron path
(`require` present, `electron.remote` absent) — in every other environment
it resolves; the guard `!(startsWith("http") || startsWith("https"))` is
exactly `!startsWith("http")`, and a URL that does not start with `http` is
handled entirely as `"https://" + url` — the rewrite happens before any
request. -/
theorem c10_fetchUrlContent_amended (env : HttpEnv) (url : String)
    (fields : List String) :
    (∀ r, fetchUrlContent env url fields = some r →
      (objGet r "title").isSome = true) ∧
    (fetchUrlContent env url fields = none →
      env.electronAvailable = true ∧ env.remotePresent = false) ∧
    ((jsStartsWith url "http" || jsStartsWith url "https") = jsStartsWith url "http") ∧
    (jsStartsWith url "http" = false →
      fetchUrlContent env url fields = fetchUrlCore env ("https://" ++ url) fields) := by
  have hhs : jsStartsWith url "https" = true → jsStartsWith url "http" = true := by
    intro h
    rw [jsStartsWith, List.isPrefixOf_iff_prefix] at h ⊢
    exact List.IsPrefix.trans (by decide) h
  have hor : (jsStartsWith url "http" || jsStartsWith url "https") =
      jsStartsWith url "http" := by
    cases hh : jsStartsWith url "http" with
    | true => simp
    | false =>
      cases hs : jsStartsWith url "https" with
      | true => exact absurd (hhs hs) (by simp [hh])
      | false => simp
  refine ⟨?_, ?_, hor, ?_⟩
  · intro r hr
    simp only [fetchUrlContent, fetchUrlCore] at hr
    by_cases hft : jsTruthyStr (tryGetFileType env (normalizeUrl url)) = true
    · rw [if_pos hft] at hr
      obtain rfl : [("title", (tryGetFileType env (normalizeUrl url)).getD "")] = r := by
        simpa using hr
      simp [objGet]
    · rw [if_neg hft] at hr
      cases he : (if env.electronAvailable then
          electronGetPageTitle env (normalizeUrl url)
          else some (nonElectronGetPageTitle env (normalizeUrl url))) with
      | none => rw [he] at hr; simp at hr
      | some title =>
        rw [he] at hr
        cases hrq : env.request (normalizeUrl url) with
        | none =>
          rw [hrq] at hr
          obtain rfl : [("title", title)] = r := by simpa using hr
          simp [objGet]
        | some html =>
          rw [hrq] at hr
          have hfold := Option.some.inj hr
          rw [← hfold]
          apply title_preserved_by_fields
          simp [objGet]
  · intro hnone
    simp only [fetchUrlContent, fetchUrlCore] at hnone
    by_cases hft : jsTruthyStr (tryGetFileType env (normalizeUrl url)) = true
    · rw [if_pos hft] at hnone
      simp at hnone
    · rw [if_neg hft] at hnone
      cases hea : env.electronAvailable with
      | false =>
        rw [hea] at hnone
        simp only [Bool.false_eq_true, if_false] at hnone
        cases hrq : env.request (normalizeUrl url) with
        | none => rw [hrq] at hnone; simp at hnone
        | some html => rw [hrq] at hnone; simp at hnone
      | true =>
        rw [hea] at hnone
        simp only [if_true] at hnone
        cases hrp : env.remotePresent with
        | true =>
          rw [electronGetPageTitle, if_pos hrp] at hnone
          cases hrq : env.request (normalizeUrl url) with
          | none => rw [hrq] at hnone; simp at hnone
          | some html => rw [hrq] at hnone; simp at hnone
        | false => exact ⟨rfl, rfl⟩
  · intro hh
    unfold fetchUrlContent normalizeUrl
    rw [hor, hh]
    simp

/-- C10, witness: a bare domain does not start with `http`, the fetch runs on
the rewritten URL, in the non-Electron all-failing environment it resolves
to a `Site Unreachable` title, and that result carries the `title` key. -/
theorem c10_fetchUrlContent_witness :
    jsStartsWith "example.com" "http" = false ∧
    fetchUrlContent envConst "example.com" ["description"] =
      fetchUrlCore envConst "https://example.com" ["description"] ∧
    fetchUrlContent envConst "example.com" [] =
      some [("title", "Site Unreachable")] ∧
    (objGet [("title", "Site Unreachable")] "title").isSome = true :=
  ⟨by decide,
    (c10_fetchUrlContent_amended envConst "example.com" ["description"]).2.2.2
      (by decide),
    by decide,
    (c10_fetchUrlContent_amended envConst "example.com" []).1
      [("title", "Site Unreachable")] (by decide)⟩

/-! ## C6 — loadNextNote guard behaviour -/

/-- Whether a `loadNextNote` outcome is an early-returned notice. -/
def isNotice : LoadOutcome → Bool
  | .notice _ _ => true
  | _ => false

/-- A markdown file sitting at the vault root. -/
def fileTop : MFile :=
  { path := "A.md", name := "A.md", basename := "A", extension := "md",
    parent := "/", ctime := 1, size := 1 }

/-- A vault whose only entry besides the root folder is the file `A.md`. -/
def vaultF : Vault :=
  { files := [fileTop], folders := [{ path := "/", parent := "" }],
    contents := [("A.md", "a")] }

/-- Settings whose sort folder is the path of the file `A.md`. -/
def settingsF : SettingsM :=
  { settings0 with sortFolder := "A.md" }

/-- An idle modal state. -/
def modalEmpty : SModal :=
  { currentNote := none, sortedNotes := [], currentIndex := 0 }

/-- C6, counterexample: a sort-folder path that resolves to a *file* does not
produce a notice — the unchecked `as TFolder` cast lets the file through the
truthiness test and `folder.children.filter` throws a TypeError. -/
theorem c6_loadNextNote_counterexample :
    getAbstractFileByPath vaultF "A.md" = some (.file fileTop) ∧
    loadNextNote idShuffle vaultF settingsF modalEmpty = .thrown modalEmpty ∧
    isNotice (loadNextNote idShuffle vaultF settingsF modalEmpty) = false := by
  refine ⟨by decide, by decide, by decide⟩

/-- C6, amended: when the sort-folder path resolves to nothing `loadNextNote`
reports the invalid-folder notice, when it resolves to a folder with no
markdown notes it reports the no-notes notice — in both cases it changes no
modal state — and when it resolves to a non-folder file it throws (also
changing no state) instead of reporting a notice. -/
theorem c6_loadNextNote_guards (rand : List MFile → List MFile) (v : Vault)
    (st : SettingsM) (s : SModal) :
    (getAbstractFileByPath v st.sortFolder = none →
      loadNextNote rand v st s = .notice "Sorteeer: Invalid folder path" s) ∧
    (∀ p, getAbstractFileByPath v st.sortFolder = some (.folder p) →
      mdNotes v p = [] →
      loadNextNote rand v st s =
        .notice "Sorteeer: No notes found in the specified folder" s) ∧
    (∀ f, getAbstractFileByPath v st.sortFolder = some (.file f) →
      loadNextNote rand v st s = .thrown s) := by
  refine ⟨?_, ?_, ?_⟩
  · intro h
    simp [loadNextNote, h]
  · intro p hp hmd
    simp [loadNextNote, hp, hmd]
  · intro f hf
    simp [loadNextNote, hf]

/-- C6, witness: the two notice guards at concrete vaults. -/
theorem c6_loadNextNote_witness :
    getAbstractFileByPath vault1 "Nowhere" = none ∧
    loadNextNote idShuffle vault1 { settings0 with sortFolder := "Nowhere" }
      modalEmpty = .notice "Sorteeer: Invalid folder path" modalEmpty :=
  ⟨by decide,
    (c6_loadNextNote_guards idShuffle vault1
      { settings0 with sortFolder := "Nowhere" } modalEmpty).1 (by decide)⟩

/-! ## C3 — every advancing action steps the cursor through the queue -/

theorem loadNextNote_steady (rand : List MFile → List MFile) (v : Vault)
    (st : SettingsM) (s : SModal) (p : String)
    (hfold : getAbstractFileByPath v st.sortFolder = some (.folder p))
    (hnotes : mdNotes v p ≠ [])
    (hq : s.sortedNotes ≠ [])
    (hidx : s.currentIndex < s.sortedNotes.length) :
    loadNextNote rand v st s =
      .ok { currentNote := some (s.sortedNotes.getD s.currentIndex defaultMFile),
            sortedNotes := s.sortedNotes,
            currentIndex :=
              if s.sortedNotes.length ≤ s.currentIndex + 1 then 0
              else s.currentIndex + 1 } := by
  have hlen : ¬ ((mdNotes v p).length = 0) := by
    simpa [List.length_eq_zero] using hnotes
  have hrb : ¬ (s.sortedNotes.length = 0 ∨ s.sortedNotes.length ≤ s.currentIndex) := by
    push_neg
    exact ⟨fun h0 => hq (List.length_eq_zero.mp h0), by omega⟩
  simp only [loadNextNote, hfold]
  rw [if_neg hlen, if_neg hrb, if_neg hrb]
  by_cases hw : s.sortedNotes.length ≤ s.currentIndex + 1
  · rw [if_pos hw, if_pos hw]
  · rw [if_neg hw, if_neg hw]

theorem loadNextNote_rebuild (rand : List MFile → List MFile) (v : Vault)
    (st : SettingsM) (s : SModal) (p : String)
    (hfold : getAbstractFileByPath v st.sortFolder = some (.folder p))
    (hnotes : mdNotes v p ≠ [])
    (hq : s.sortedNotes.length = 0 ∨ s.sortedNotes.length ≤ s.currentIndex) :
    loadNextNote rand v st s =
      .ok { currentNote :=
              some ((sortNotes rand st.sortOrder (mdNotes v p)).getD 0 defaultMFile),
            sortedNotes := sortNotes rand st.sortOrder (mdNotes v p),
            currentIndex :=
              if (sortNotes rand st.sortOrder (mdNotes v p)).length ≤ 1 then 0
              else 1 } := by
  have hlen : ¬ ((mdNotes v p).length = 0) := by
    simpa [List.length_eq_zero] using hnotes
  simp only [loadNextNote, hfold]
  rw [if_neg hlen, if_pos hq, if_pos hq]
  by_cases hw : (sortNotes rand st.sortOrder (mdNotes v p)).length ≤ 0 + 1
  · rw [if_pos hw, if_pos (by simpa using hw)]
  · rw [if_neg hw, if_neg (by simpa using hw)]

/-- C3: a delete, move, skip, or copy-link action that completes on a
non-null current note, with the sort folder (of the post-action vault)
resolving to a folder that still holds markdown notes, advances the review:
the displayed note is the queue element at the cursor, and the cursor
increments by one, wrapping to position 0 past the last queue element. -/
theorem c3_action_advances (rand : List MFile → List MFile) (act : ReviewAction)
    (v : Vault) (st : SettingsM) (s : SModal) (f : MFile) (v' : Vault)
    (out : LoadOutcome) (p : String)
    (hcur : s.currentNote = some f)
    (hcomp : actionCompletes act v st s)
    (hrun : applyAction rand act v st s = (v', out))
    (hfold : getAbstractFileByPath v' st.sortFolder = some (.folder p))
    (hnotes : mdNotes v' p ≠ [])
    (hq : s.sortedNotes ≠ [])
    (hidx : s.currentIndex < s.sortedNotes.length) :
    out = .ok { currentNote := some (s.sortedNotes.getD s.currentIndex defaultMFile),
                sortedNotes := s.sortedNotes,
                currentIndex :=
                  if s.sortedNotes.length ≤ s.currentIndex + 1 then 0
                  else s.currentIndex + 1 } := by
  cases act with
  | skip =>
    simp only [applyAction, skipNote, Prod.mk.injEq] at hrun
    obtain ⟨hv, hout⟩ := hrun
    rw [← hout]
    rw [← hv] at hfold hnotes
    exact loadNextNote_steady rand v st s p hfold hnotes hq hidx
  | copyLink =>
    simp only [applyAction, copyNoteLink, Prod.mk.injEq] at hrun
    obtain ⟨hv, hout⟩ := hrun
    rw [← hout]
    rw [← hv] at hfold hnotes
    exact loadNextNote_steady rand v st s p hfold hnotes hq hidx
  | del =>
    simp only [applyAction, deleteNote, hcur, Prod.mk.injEq] at hrun
    obtain ⟨hv, hout⟩ := hrun
    rw [← hout]
    rw [← hv] at hfold hnotes
    exact loadNextNote_steady rand (trashFile v f.path) st s p hfold hnotes hq hidx
  | move =>
    obtain ⟨f', p', hc', hm', hr'⟩ := hcomp
    obtain ⟨v₁, hv₁⟩ := Option.isSome_iff_exists.mp hr'
    simp only [applyAction, moveNote, hc', hm', hv₁, Prod.mk.injEq] at hrun
    obtain ⟨hv, hout⟩ := hrun
    rw [← hout]
    rw [← hv] at hfold hnotes
    exact loadNextNote_steady rand v₁ st s p hfold hnotes hq hidx

/-- C3, witness: skipping from a concrete two-note queue displays the queue
head and moves the cursor to 1. -/
theorem c3_action_advances_witness :
    applyAction idShuffle .skip vault1 settings0 modal0 =
      (vault1, loadNextNote idShuffle vault1 settings0 modal0) ∧
    loadNextNote idShuffle vault1 settings0 modal0 =
      .ok { currentNote := some noteA, sortedNotes := [noteA, noteB],
            currentIndex := 1 } := by
  refine ⟨rfl, ?_⟩
  have h := c3_action_advances idShuffle .skip vault1 settings0 modal0 noteA
    vault1 (loadNextNote idShuffle vault1 settings0 modal0) "Inbox"
    (by decide) trivial rfl (by decide) (by decide) (by decide) (by decide)
  rw [h]
  decide

/-! ## C4 — queue ordering per sort order -/

theorem insertionSort_spec (le : MFile → MFile → Prop) [DecidableRel le]
    (htot : ∀ a b, le a b ∨ le b a)
    (htr : ∀ a b c, le a b → le b c → le a c)
    (notes : List MFile) :
    List.Sorted le (List.insertionSort le notes) ∧
    (List.insertionSort le notes).Perm notes ∧
    (∀ g ∈ notes, le ((List.insertionSort le notes).getD 0 defaultMFile) g) := by
  haveI : IsTotal MFile le := ⟨htot⟩
  haveI : IsTrans MFile le := ⟨fun a b c => htr a b c⟩
  have hsort := List.sorted_insertionSort le notes
  have hperm := List.perm_insertionSort le notes
  refine ⟨hsort, hperm, ?_⟩
  intro g hg
  have hg' : g ∈ List.insertionSort le notes := hperm.mem_iff.mpr hg
  cases hcase : List.insertionSort le notes with
  | nil => rw [hcase] at hg'; simp at hg'
  | cons x rest =>
    rw [hcase] at hg' hsort
    simp only [List.getD_cons_zero]
    rcases List.mem_cons.mp hg' with h | h
    · subst h
      rcases htot g g with h | h <;> exact h
    · exact List.rel_of_sorted_cons hsort g h

/-- C4: when `loadNextNote` (re)builds the queue, the queue is the folder's
markdown notes ordered by the configured sort order — ascending `ctime` for
`oldest` (so the first presented note has minimal creation time), descending
`ctime` for `newest` (first note maximal), ascending `size` for `smallest`
(first note smallest) — and the note displayed is the queue head. -/
theorem c4_loadNextNote_sorted (rand : List MFile → List MFile) (v : Vault)
    (st : SettingsM) (s : SModal) (p : String)
    (hfold : getAbstractFileByPath v st.sortFolder = some (.folder p))
    (hnotes : mdNotes v p ≠ [])
    (hq : s.sortedNotes = []) :
    ∃ s', loadNextNote rand v st s = .ok s' ∧
      s'.currentNote = some (s'.sortedNotes.getD 0 defaultMFile) ∧
      (st.sortOrder = .oldest →
        List.Sorted (fun a b : MFile => a.ctime ≤ b.ctime) s'.sortedNotes ∧
        s'.sortedNotes.Perm (mdNotes v p) ∧
        ∀ g ∈ mdNotes v p, (s'.sortedNotes.getD 0 defaultMFile).ctime ≤ g.ctime) ∧
      (st.sortOrder = .newest →
        List.Sorted (fun a b : MFile => b.ctime ≤ a.ctime) s'.sortedNotes ∧
        s'.sortedNotes.Perm (mdNotes v p) ∧
        ∀ g ∈ mdNotes v p, g.ctime ≤ (s'.sortedNotes.getD 0 defaultMFile).ctime) ∧
      (st.sortOrder = .smallest →
        List.Sorted (fun a b : MFile => a.size ≤ b.size) s'.sortedNotes ∧
        s'.sortedNotes.Perm (mdNotes v p) ∧
        ∀ g ∈ mdNotes v p, (s'.sortedNotes.getD 0 defaultMFile).size ≤ g.size) := by
  have hrb : s.sortedNotes.length = 0 ∨ s.sortedNotes.length ≤ s.currentIndex :=
    Or.inl (by simp [hq])
  refine ⟨_, loadNextNote_rebuild rand v st s p hfold hnotes hrb, rfl, ?_, ?_, ?_⟩
  · intro ho
    have h := insertionSort_spec (fun a b : MFile => a.ctime ≤ b.ctime)
      (fun a b => Int.le_total a.ctime b.ctime)
      (fun a b c hab hbc => le_trans hab hbc) (mdNotes v p)
    simpa [sortNotes, ho] using h
  · intro ho
    have h := insertionSort_spec (fun a b : MFile => b.ctime ≤ a.ctime)
      (fun a b => (Int.le_total b.ctime a.ctime).symm.symm)
      (fun a b c hab hbc => le_trans hbc hab) (mdNotes v p)
    simpa [sortNotes, ho] using h
  · intro ho
    have h := insertionSort_spec (fun a b : MFile => a.size ≤ b.size)
      (fun a b => Int.le_total a.size b.size)
      (fun a b c hab hbc => le_trans hab hbc) (mdNotes v p)
    simpa [sortNotes, ho] using h

/-- C4, witness: with `oldest` on the concrete two-note vault, the queue is
`[noteB, noteA]` (ctimes 3 and 5) and `noteB` is displayed first. -/
theorem c4_loadNextNote_sorted_witness :
    mdNotes vault1 "Inbox" ≠ [] ∧
    ∃ s', loadNextNote idShuffle vault1 settings0 modalEmpty = .ok s' ∧
      s'.currentNote = some (s'.sortedNotes.getD 0 defaultMFile) ∧
      (settings0.sortOrder = .oldest →
        List.Sorted (fun a b : MFile => a.ctime ≤ b.ctime) s'.sortedNotes ∧
        s'.sortedNotes.Perm (mdNotes vault1 "Inbox") ∧
        ∀ g ∈ mdNotes vault1 "Inbox",
          (s'.sortedNotes.getD 0 defaultMFile).ctime ≤ g.ctime) ∧
      (settings0.sortOrder = .newest →
        List.Sorted (fun a b : MFile => b.ctime ≤ a.ctime) s'.sortedNotes ∧
        s'.sortedNotes.Perm (mdNotes vault1 "Inbox") ∧
        ∀ g ∈ mdNotes vault1 "Inbox",
          g.ctime ≤ (s'.sortedNotes.getD 0 defaultMFile).ctime) ∧
      (settings0.sortOrder = .smallest →
        List.Sorted (fun a b : MFile => a.size ≤ b.size) s'.sortedNotes ∧
        s'.sortedNotes.Perm (mdNotes vault1 "Inbox") ∧
        ∀ g ∈ mdNotes vault1 "Inbox",
          (s'.sortedNotes.getD 0 defaultMFile).size ≤ g.size) :=
  ⟨by decide,
    c4_loadNextNote_sorted idShuffle vault1 settings0 modalEmpty "Inbox"
      (by decide) (by decide) rfl⟩

/-! ## C8 — getDailyNote -/

theorem getAbstractFileByPath_file_path (v : Vault) (p : String) (f : MFile)
    (h : getAbstractFileByPath v p = some (.file f)) : f.path = p := by
  unfold getAbstractFileByPath at h
  cases hf : v.files.find? (fun g => g.path = p) with
  | some g =>
    rw [hf] at h
    obtain rfl : g = f := by simpa using h
    have hpred := List.find?_some hf
    exact of_decide_eq_true hpred
  | none =>
    rw [hf] at h
    cases hd : v.folders.find? (fun d => d.path = p) with
    | some d => rw [hd] at h; simp at h
    | none => rw [hd] at h; simp at h

theorem vaultCreate_some (v : Vault) (p c : String) (now : Int) (f : MFile)
    (v₂ : Vault) (h : vaultCreate v p c now = some (f, v₂)) :
    f.path = p ∧ vaultRead v₂ p = some c := by
  unfold vaultCreate at h
  cases hg : getAbstractFileByPath v p with
  | some _ => rw [hg] at h; simp at h
  | none =>
    rw [hg] at h
    by_cases hp : (v.folders.find? (fun d => d.path = parentDir p)).isSome
    · rw [if_pos hp] at h
      obtain ⟨hf, hv⟩ :
          ({ path := p, name := lastSegment p, basename := baseOf (lastSegment p),
             extension := extOf (lastSegment p), parent := parentDir p,
             ctime := now, size := (c.data.length : Int) } : MFile) = f ∧
          ({ v with files := v.files ++ [_],
                    contents := objSet v.contents p c } : Vault) = v₂ := by
        simpa using h
      constructor
      · rw [← hf]
      · rw [← hv]
        simp [vaultRead, objGet_objSet_self]
    · rw [if_neg hp] at h
      simp at h

/-- C8: `getDailyNote` looks up
`dailyNoteFolder + '/' + dateString + '.md'`; any file it returns lives at
that path; if the path already resolves to a file it returns that file with
the vault untouched; if the path resolves to nothing it creates the note
with empty content (returning the new file) and, when creation fails, it
returns `null`; whenever it returns `null` the vault is unchanged.  The
embedding is a total function: every failure path of the code is caught. -/
theorem c8_getDailyNote (v : Vault) (st : SettingsM) (dateString : String)
    (now : Int) :
    (∀ f v₂, getDailyNote v st dateString now = (some f, v₂) →
      f.path = st.dailyNoteFolder ++ "/" ++ dateString ++ ".md") ∧
    (∀ v₂, getDailyNote v st dateString now = (none, v₂) → v₂ = v) ∧
    (∀ f, getAbstractFileByPath v
        (st.dailyNoteFolder ++ "/" ++ dateString ++ ".md") = some (.file f) →
      getDailyNote v st dateString now = (some f, v)) ∧
    (getAbstractFileByPath v
        (st.dailyNoteFolder ++ "/" ++ dateString ++ ".md") = none →
      (∀ f v₂, vaultCreate v
          (st.dailyNoteFolder ++ "/" ++ dateString ++ ".md") "" now = some (f, v₂) →
        getDailyNote v st dateString now = (some f, v₂) ∧
        vaultRead v₂ f.path = some "") ∧
      (vaultCreate v
          (st.dailyNoteFolder ++ "/" ++ dateString ++ ".md") "" now = none →
        getDailyNote v st dateString now = (none, v))) := by
  cases hg : getAbstractFileByPath v
      (st.dailyNoteFolder ++ "/" ++ dateString ++ ".md") with
  | some ref =>
    cases ref with
    | file f0 =>
      have hres : getDailyNote v st dateString now = (some f0, v) := by
        simp [getDailyNote, hg]
      refine ⟨?_, ?_, ?_, ?_⟩
      · intro f v₂ h
        rw [hres] at h
        obtain ⟨hf, _⟩ : f0 = f ∧ v = v₂ := by simpa using h
        subst hf
        exact getAbstractFileByPath_file_path v _ f0 hg
      · intro v₂ h
        rw [hres] at h
        simp at h
      · intro f hf
        obtain rfl : f0 = f := by simpa using hf
        exact hres
      · intro hnone
        simp at hnone
    | folder q =>
      have hres : getDailyNote v st dateString now = (none, v) := by
        simp [getDailyNote, hg]
      refine ⟨?_, ?_, ?_, ?_⟩
      · intro f v₂ h
        rw [hres] at h
        simp at h
      · intro v₂ h
        rw [hres] at h
        have hv : v = v₂ := by simpa using h
        exact hv.symm
      · intro f hf
        simp at hf
      · intro hnone
        simp at hnone
  | none =>
    cases hc : vaultCreate v
        (st.dailyNoteFolder ++ "/" ++ dateString ++ ".md") "" now with
    | some fv =>
      obtain ⟨f0, v₁⟩ := fv
      have hres : getDailyNote v st dateString now = (some f0, v₁) := by
        simp [getDailyNote, hg, hc]
      obtain ⟨hpath, hread⟩ := vaultCreate_some v _ "" now f0 v₁ hc
      refine ⟨?_, ?_, ?_, ?_⟩
      · intro f v₂ h
        rw [hres] at h
        obtain ⟨hf, _⟩ : f0 = f ∧ v₁ = v₂ := by simpa using h
        subst hf
        exact hpath
      · intro v₂ h
        rw [hres] at h
        simp at h
      · intro f hf
        simp at hf
      · intro _
        refine ⟨?_, ?_⟩
        · intro f v₂ h
          obtain ⟨hf, hv⟩ : f0 = f ∧ v₁ = v₂ := by simpa using h
          subst hf
          subst hv
          refine ⟨hres, ?_⟩
          rw [hpath]
          exact hread
        · intro h
          simp at h
    | none =>
      have hres : getDailyNote v st dateString now = (none, v) := by
        simp [getDailyNote, hg, hc]
      refine ⟨?_, ?_, ?_, ?_⟩
      · intro f v₂ h
        rw [hres] at h
        simp at h
      · intro v₂ h
        rw [hres] at h
        have hv : v = v₂ := by simpa using h
        exact hv.symm
      · intro f hf
        simp at hf
      · intro _
        exact ⟨fun f v₂ h => by simp at h, fun _ => hres⟩

/-- The settings used by the daily-note witnesses. -/
def settingsD : SettingsM :=
  { settings0 with dailyNoteFolder := "Daily" }

/-- An existing daily note for 2026-10-11. -/
def dailyFile : MFile :=
  { path := "Daily/2026-10-11.md", name := "2026-10-11.md",
    basename := "2026-10-11", extension := "md", parent := "Daily",
    ctime := 9, size := 0 }

/-- A vault holding the daily note (with empty content) and its folder. -/
def vaultD : Vault :=
  { files := [dailyFile],
    folders := [{ path := "/", parent := "" }, { path := "Daily", parent := "/" }],
    contents := [("Daily/2026-10-11.md", "")] }

/-- C8, witness: on a vault already holding the daily note, `getDailyNote`
returns exactly that file and leaves the vault unchanged. -/
theorem c8_getDailyNote_witness :
    getAbstractFileByPath vaultD ("Daily" ++ "/" ++ "2026-10-11" ++ ".md") =
      some (.file dailyFile) ∧
    getDailyNote vaultD settingsD "2026-10-11" 99 = (some dailyFile, vaultD) :=
  ⟨by decide,
    (c8_getDailyNote vaultD settingsD "2026-10-11" 99).2.2.1 dailyFile (by decide)⟩

/-! ## C7 — addToDailyNote insertion semantics -/

theorem strData_append (a b : String) : (a ++ b).data = a.data ++ b.data := rfl

theorem strEq_of_data {a b : String} (h : a.data = b.data) : a = b :=
  congrArg String.mk h

/-- For a non-empty section header that occurs in the content, the content
edit inserts `"\n- [[basename]]"` immediately after the *first* occurrence
(`b` is the shortest prefix preceding an occurrence) and preserves the rest
of the content on both sides. -/
theorem addToDailyNoteContent_insert (content sec basename : String)
    (hsec : sec ≠ "") (hinc : jsIncludes content sec = true) :
    ∃ b a : String, content = b ++ sec ++ a ∧
      (∀ b' a' : String, content = b' ++ sec ++ a' → b.length ≤ b'.length) ∧
      addToDailyNoteContent content sec basename =
        b ++ sec ++ "\n- " ++ ("[[" ++ basename ++ "]]") ++ a := by
  have hsd : sec.data ≠ [] := by
    intro h
    exact hsec (strEq_of_data (by simpa using h))
  have hsome : (splitFirst sec.data content.data).isSome = true := by
    unfold jsIncludes at hinc
    rw [if_neg hsd] at hinc
    exact hinc
  obtain ⟨⟨b0, r0⟩, hsf⟩ := Option.isSome_iff_exists.mp hsome
  have hdec := splitFirst_eq_some sec.data content.data b0 r0 hsf
  have hlen := splitFirst_rest_length sec.data hsd content.data b0 r0 hsf
  refine ⟨String.mk b0, String.mk r0, ?_, ?_, ?_⟩
  · apply strEq_of_data
    simpa [strData_append] using hdec
  · intro b' a' hba
    have hba' : content.data = b'.data ++ sec.data ++ a'.data := by
      simpa [strData_append] using congrArg String.data hba
    exact splitFirst_min sec.data content.data b0 r0 hsf b'.data a'.data hba'
  · simp only [addToDailyNoteContent]
    rw [if_pos hinc]
    unfold jsSplit
    rw [if_neg hsd]
    have hgo : jsSplitGo sec.data (content.data.length + 1) content.data
        = b0 :: jsSplitGo sec.data content.data.length r0 := by
      simp [jsSplitGo, hsf]
    rw [hgo]
    cases hrest : jsSplitGo sec.data content.data.length r0 with
    | nil => exact absurd hrest (jsSplitGo_ne_nil _ _ _)
    | cons r1 rest =>
      have hget : jsArrayGetStr ((b0 :: r1 :: rest).map String.mk) 1 = String.mk r1 := by
        simp [jsArrayGetStr]
      have hset : jsArraySetStr ((b0 :: r1 :: rest).map String.mk) 1
          ("\n- " ++ ("[[" ++ basename ++ "]]") ++ String.mk r1)
          = String.mk b0 :: ("\n- " ++ ("[[" ++ basename ++ "]]") ++ String.mk r1)
              :: rest.map String.mk := by
        rw [jsArraySetStr, if_pos (by simp)]
        simp [List.set]
      rw [hget, hset]
      unfold jsJoin
      apply strEq_of_data
      have hmapdata : ∀ l : List (List Char), (l.map String.mk).map String.data = l := by
        intro l
        induction l with
        | nil => rfl
        | cons x xs ih => simp only [List.map_cons, ih]
      have hjoin :
          jsJoinL sec.data
            ((String.mk b0 :: ("\n- " ++ ("[[" ++ basename ++ "]]") ++ String.mk r1)
                :: rest.map String.mk).map String.data)
          = b0 ++ sec.data ++
              (("\n- " ++ ("[[" ++ basename ++ "]]")).data ++ r0) := by
        have : ((String.mk b0 :: ("\n- " ++ ("[[" ++ basename ++ "]]") ++ String.mk r1)
            :: rest.map String.mk).map String.data)
            = b0 :: (("\n- " ++ ("[[" ++ basename ++ "]]")).data ++ r1) :: rest := by
          simp only [List.map_cons, strData_append, hmapdata]
        rw [this, jsJoinL_cons sec.data _ _ (by simp), jsJoinL_head_append]
        have hback : r1 :: rest = jsSplitGo sec.data content.data.length r0 :=
          hrest.symm
        rw [hback, jsJoinL_jsSplitGo sec.data hsd content.data.length r0 hlen]
      rw [hjoin]
      simp [strData_append, List.append_assoc]

/-- C7, counterexample: with an empty configured section header (which every
content "includes", its first occurrence being at position 0) the code
splits the content into single characters and splices the link after the
*first character*, not immediately after the first occurrence of the
header — inserting there would give `"\n- [[n]]ab"`. -/
theorem c7_addToDailyNote_counterexample :
    jsIncludes "ab" "" = true ∧
    addToDailyNoteContent "ab" "" "n" = "a\n- [[n]]b" ∧
    ¬ ∃ b a : String, ("ab" : String) = b ++ "" ++ a ∧
        (∀ b' a' : String, ("ab" : String) = b' ++ "" ++ a' → b.length ≤ b'.length) ∧
        addToDailyNoteContent "ab" "" "n" = b ++ "" ++ "\n- [[n]]" ++ a := by
  refine ⟨by decide, by decide, ?_⟩
  rintro ⟨b, a, h1, h2, h3⟩
  have hb0 : b.length ≤ 0 := h2 "" "ab" rfl
  have hbnil : b.data = [] := List.length_eq_zero.mp (Nat.le_zero.mp hb0)
  have hb : b = "" := strEq_of_data (by simpa using hbnil)
  subst hb
  have ha : a = "ab" := by
    have := h1
    simpa using this.symm
  subst ha
  revert h3
  decide

/-- C7, amended: for a non-null current note, a daily note that resolves,
and a *non-empty* configured section header, `addToDailyNote` rewrites the
daily note to the edited content; when the daily note contains the header
the list item `"\n- [[basename]]"` goes immediately after the header's first
occurrence, with everything before and after preserved, and otherwise the
header and the list item are appended at the end.  (With an empty header the
code instead splices after the first character, per the counterexample.) -/
theorem c7_addToDailyNote_amended (v : Vault) (st : SettingsM)
    (dateString : String) (now : Int) (f dn : MFile) (v₁ : Vault)
    (content : String)
    (hsec : st.dailyNoteSection ≠ "")
    (hdn : getDailyNote v st dateString now = (some dn, v₁))
    (hread : vaultRead v₁ dn.path = some content) :
    addToDailyNote v st dateString now (some f) =
      vaultModify v₁ dn.path
        (addToDailyNoteContent content st.dailyNoteSection f.basename) ∧
    (jsIncludes content st.dailyNoteSection = true →
      ∃ b a : String, content = b ++ st.dailyNoteSection ++ a ∧
        (∀ b' a' : String, content = b' ++ st.dailyNoteSection ++ a' →
          b.length ≤ b'.length) ∧
        addToDailyNoteContent content st.dailyNoteSection f.basename =
          b ++ st.dailyNoteSection ++ "\n- " ++ ("[[" ++ f.basename ++ "]]") ++ a) ∧
    (jsIncludes content st.dailyNoteSection = false →
      addToDailyNoteContent content st.dailyNoteSection f.basename =
        content ++ "\n\n" ++ st.dailyNoteSection ++ "\n- " ++
          ("[[" ++ f.basename ++ "]]")) := by
  refine ⟨?_, ?_, ?_⟩
  · simp [addToDailyNote, hdn, hread]
  · intro hinc
    exact addToDailyNoteContent_insert content st.dailyNoteSection f.basename hsec hinc
  · intro hinc
    simp only [addToDailyNoteContent]
    rw [if_neg (by simp [hinc])]

/-- C7, witness: the amended theorem applied to a concrete daily note whose
content already carries the `## Reviewed` header. -/
theorem c7_addToDailyNote_witness :
    ("## Reviewed" : String) ≠ "" ∧
    getDailyNote (setContent vaultD "Daily/2026-10-11.md" "x\n\n## Reviewed\n- [[old]]")
        settingsD "2026-10-11" 99 =
      (some dailyFile, setContent vaultD "Daily/2026-10-11.md" "x\n\n## Reviewed\n- [[old]]") ∧
    addToDailyNote (setContent vaultD "Daily/2026-10-11.md" "x\n\n## Reviewed\n- [[old]]")
        settingsD "2026-10-11" 99 (some noteA) =
      vaultModify (setContent vaultD "Daily/2026-10-11.md" "x\n\n## Reviewed\n- [[old]]")
        dailyFile.path
        (addToDailyNoteContent "x\n\n## Reviewed\n- [[old]]" "## Reviewed" "N") :=
  ⟨by decide, by decide,
    (c7_addToDailyNote_amended
      (setContent vaultD "Daily/2026-10-11.md" "x\n\n## Reviewed\n- [[old]]")
      settingsD "2026-10-11" 99 noteA dailyFile
      (setContent vaultD "Daily/2026-10-11.md" "x\n\n## Reviewed\n- [[old]]")
      "x\n\n## Reviewed\n- [[old]]" (by decide) (by decide) (by decide)).1⟩

end Sorteeer
